import Mathlib

/-!
# Incremental extraction filter with upsert-merge semantics

A verification development for the edp-workshop repository.  The notebooks wire a
third-party ingestion library; the algorithmic core they exercise — a cursor store,
an incremental (strictly-greater-than) filter and a keyed merge/upsert writer — is
modelled here from the specification, and the two record-producing functions that do
appear in the notebooks (`person` and `people`) are embedded from their source.
-/

namespace EdpWorkshop

/-- A field value carried by a record: a string (names, countries, date strings) or
an integer (ids, timestamps encoded as epoch seconds). -/
inductive Val where
  | vstr : String → Val
  | vint : Int → Val
  deriving DecidableEq, Repr

/-- Embed values into the lexicographic sum of integers and strings, which carries
a linear order; this makes cursor values totally ordered. -/
def Val.key : Val → Int ⊕ₗ String
  | .vint n => toLex (Sum.inl n)
  | .vstr s => toLex (Sum.inr s)

theorem Val.key_injective : Function.Injective Val.key := by
  intro a b h
  cases a <;> cases b <;> simp [Val.key] at h <;> simp [h]

instance : LinearOrder Val :=
  LinearOrder.lift' Val.key Val.key_injective

/-- Modelled from the spec: a Record is an ordered mapping from field name to value
(spec §3, Data Model); the repository's own code is notebook glue and does not define
the record type, which lives in the ingestion library. -/
abbrev Record := List (String × Val)

/-- Field lookup in a record: the value at the first occurrence of field `f`. -/
def getField (r : Record) (f : String) : Option Val :=
  (List.find? (fun p => decide (p.1 = f)) r).map (fun p => p.2)

/-- Modelled from the spec: the error kinds of §7 (MissingPrimaryKey,
MissingCursorField, CursorStoreUnavailable, DestinationWriteFailure). -/
inductive Err where
  | missingPrimaryKey
  | missingCursorField
  | cursorStoreUnavailable
  | destinationWriteFailure
  deriving DecidableEq, Repr

/-- Modelled from the spec: the strict greater-than test of the Incremental Filter
(spec §4.2); an absent stored state admits every value (treated as negative
infinity, spec §4.1). -/
def newerThan (st : Option Val) (v : Val) : Bool :=
  match st with
  | none => true
  | some c => decide (c < v)

/-- Whether the Incremental Filter keeps record `r`: it has the cursor field and its
value passes the strict test. -/
def keeps (cf : String) (st : Option Val) (r : Record) : Bool :=
  match getField r cf with
  | none => false
  | some v => newerThan st v

/-- Modelled from the spec: the Incremental Filter (spec §4.2).  Each record's
cursor-field value is compared to the stored state with a strict greater-than test;
records with an equal or smaller value are dropped; a record lacking the cursor
field is fatal for the run (spec §7, MissingCursorField). -/
def filterBatch (cf : String) (st : Option Val) : List Record → Except Err (List Record)
  | [] => Except.ok []
  | r :: rs =>
    match getField r cf with
    | none => Except.error Err.missingCursorField
    | some v =>
      match filterBatch cf st rs with
      | Except.error e => Except.error e
      | Except.ok l => Except.ok (if newerThan st v then r :: l else l)

/-- Fold step computing the running maximum cursor value, starting from the
previous state. -/
def bump (st : Option Val) (v : Val) : Option Val :=
  match st with
  | none => some v
  | some c => some (max c v)

/-- Modelled from the spec: the candidate next Cursor State — the maximum
cursor-field value among the surviving records, or the previous state unchanged
when none survive (spec §4.2, edge case). -/
def nextState (cf : String) (st : Option Val) (survivors : List Record) : Option Val :=
  (survivors.filterMap (fun r => getField r cf)).foldl bump st

/-- Whether the destination already holds a row with primary-key value `k`. -/
def hasKey (pk : String) (dest : List Record) (k : Val) : Bool :=
  dest.any (fun row => decide (getField row pk = some k))

/-- Modelled from the spec: one upsert of the Merge Writer (spec §4.3).  If a
destination row with the same primary key exists its field values are replaced by
the incoming record, otherwise the record is inserted as a new row. -/
def upsertRow (pk : String) (dest : List Record) (r : Record) (k : Val) : List Record :=
  if hasKey pk dest k then
    dest.map (fun row => if getField row pk = some k then r else row)
  else
    dest ++ [r]

/-- Modelled from the spec: the Merge Writer (spec §4.3).  Filtered records are
applied in order to the destination; a record lacking the primary-key field is
fatal (spec §4.3 failure mode, §7 MissingPrimaryKey). -/
def mergeBatch (pk : String) (dest : List Record) : List Record → Except Err (List Record)
  | [] => Except.ok dest
  | r :: rs =>
    match getField r pk with
    | none => Except.error Err.missingPrimaryKey
    | some k => mergeBatch pk (upsertRow pk dest r k) rs

/-- External collaborators that can fail during a run: the cursor store at read or
commit time, and the destination at write time. -/
structure Ext where
  cursorReadOk : Bool
  destWriteOk : Bool
  cursorWriteOk : Bool

/-- The persisted system state: the Cursor State for the (pipeline, resource) key
and the destination table's rows. -/
structure SysState where
  cursor : Option Val
  dest : List Record
  deriving DecidableEq

/-- Modelled from the spec: one full run of the state machine of §4.3:
IDLE → READ_CURSOR → FILTER → EMPTY? (yes: IDLE / no: MERGE) → COMMIT_CURSOR → IDLE.
Returns the persisted state after the run together with the error that aborted it,
if any; a failure before COMMIT_CURSOR leaves the Cursor State at its pre-run
value. -/
def runStore (cf pk : String) (ext : Ext) (sys : SysState) (batch : List Record) :
    SysState × Option Err :=
  if ext.cursorReadOk = false then (sys, some Err.cursorStoreUnavailable)
  else
    match filterBatch cf sys.cursor batch with
    | Except.error e => (sys, some e)
    | Except.ok survivors =>
      if survivors.isEmpty then (sys, none)
      else if ext.destWriteOk = false then (sys, some Err.destinationWriteFailure)
      else
        match mergeBatch pk sys.dest survivors with
        | Except.error e => (sys, some e)
        | Except.ok dest2 =>
          if ext.cursorWriteOk = false then
            (⟨sys.cursor, dest2⟩, some Err.cursorStoreUnavailable)
          else (⟨nextState cf sys.cursor survivors, dest2⟩, none)

/-- Order on optional cursor states: an absent state is below every state. -/
def stateLE (s t : Option Val) : Bool :=
  match s, t with
  | none, _ => true
  | some _, none => false
  | some a, some b => decide (a ≤ b)

/-! ## Lemmas about the Incremental Filter -/

theorem filterBatch_ok_eq_filter (cf : String) (st : Option Val) (B S : List Record)
    (h : filterBatch cf st B = Except.ok S) : S = List.filter (keeps cf st) B := by
  induction B generalizing S with
  | nil =>
    simp only [filterBatch] at h
    cases h
    rfl
  | cons r rs ih =>
    rw [filterBatch] at h
    cases hg : getField r cf with
    | none => rw [hg] at h; cases h
    | some v =>
      rw [hg] at h
      cases hrec : filterBatch cf st rs with
      | error e => rw [hrec] at h; cases h
      | ok l =>
        rw [hrec] at h
        cases h
        rw [List.filter_cons]
        have hk : keeps cf st r = newerThan st v := by simp [keeps, hg]
        rw [hk, ← ih l hrec]

theorem filterBatch_isOk (cf : String) (st : Option Val) (B : List Record)
    (h : ∀ r ∈ B, (getField r cf).isSome = true) :
    filterBatch cf st B = Except.ok (List.filter (keeps cf st) B) := by
  induction B with
  | nil => rfl
  | cons r rs ih =>
    obtain ⟨v, hv⟩ := Option.isSome_iff_exists.mp (h r (by simp))
    rw [filterBatch, hv, ih (fun x hx => h x (by simp [hx])), List.filter_cons]
    have hk : keeps cf st r = newerThan st v := by simp [keeps, hv]
    rw [hk]

/-- C1: For every batch B and every cursor state C, the Incremental Filter applied
to B with state C yields exactly the records of B whose cursor-field value is
strictly greater than C; any record whose cursor value equals or is below C is
dropped, including records whose cursor value equals C exactly. -/
theorem incremental_filter_strict (cf : String) (st : Option Val) (B S : List Record)
    (h : filterBatch cf st B = Except.ok S) :
    S = List.filter (keeps cf st) B ∧
      ∀ r v, r ∈ B → getField r cf = some v →
        (r ∈ S ↔ ∀ c, st = some c → c < v) := by
  have hS := filterBatch_ok_eq_filter cf st B S h
  subst hS
  refine ⟨rfl, ?_⟩
  intro r v hrB hrv
  rw [List.mem_filter]
  constructor
  · rintro ⟨-, hk⟩ c hc
    subst hc
    simpa [keeps, hrv, newerThan] using hk
  · intro hall
    refine ⟨hrB, ?_⟩
    cases st with
    | none => simp [keeps, hrv, newerThan]
    | some c => simp [keeps, hrv, newerThan, hall c rfl]

theorem incremental_filter_strict_witness :
    ([[("id", Val.vint 1), ("updated_at", Val.vint 20240103)]] : List Record) =
        List.filter (keeps "updated_at" (some (Val.vint 20240102)))
          [[("id", Val.vint 1), ("updated_at", Val.vint 20240103)],
            [("id", Val.vint 2), ("updated_at", Val.vint 20240102)]] ∧
      ∀ r v,
        r ∈ ([[("id", Val.vint 1), ("updated_at", Val.vint 20240103)],
              [("id", Val.vint 2), ("updated_at", Val.vint 20240102)]] : List Record) →
        getField r "updated_at" = some v →
        (r ∈ ([[("id", Val.vint 1), ("updated_at", Val.vint 20240103)]] : List Record) ↔
          ∀ c, (some (Val.vint 20240102) : Option Val) = some c → c < v) :=
  incremental_filter_strict "updated_at" (some (Val.vint 20240102))
    [[("id", Val.vint 1), ("updated_at", Val.vint 20240103)],
      [("id", Val.vint 2), ("updated_at", Val.vint 20240102)]]
    [[("id", Val.vint 1), ("updated_at", Val.vint 20240103)]] (by rfl)

/-- C7: On the first run, when no Cursor State exists for the (pipeline, resource)
key, the absent value is treated as the minimum possible value for the
strict-greater-than comparison, so every record in the batch passes the
Incremental Filter. -/
theorem absent_state_admits_all (cf : String) (B : List Record)
    (h : ∀ r ∈ B, (getField r cf).isSome = true) :
    filterBatch cf none B = Except.ok B := by
  induction B with
  | nil => rfl
  | cons r rs ih =>
    obtain ⟨v, hv⟩ := Option.isSome_iff_exists.mp (h r (by simp))
    rw [filterBatch, hv, ih (fun x hx => h x (by simp [hx]))]
    simp [newerThan]

theorem absent_state_admits_all_witness :
    filterBatch "cursor" none
        [[("id", Val.vint 1), ("cursor", Val.vint 20240101)],
          [("id", Val.vint 2), ("cursor", Val.vint 20240102)]] =
      Except.ok
        [[("id", Val.vint 1), ("cursor", Val.vint 20240101)],
          [("id", Val.vint 2), ("cursor", Val.vint 20240102)]] :=
  absent_state_admits_all "cursor"
    [[("id", Val.vint 1), ("cursor", Val.vint 20240101)],
      [("id", Val.vint 2), ("cursor", Val.vint 20240102)]] (by decide)

/-! ## Lemmas about the next Cursor State -/

theorem foldl_bump_some (vs : List Val) (c : Val) :
    vs.foldl bump (some c) = some (vs.foldl max c) := by
  induction vs generalizing c with
  | nil => rfl
  | cons v vs ih => simp [List.foldl_cons, bump, ih]

theorem foldl_max_mem (c : Val) (vs : List Val) :
    vs.foldl max c = c ∨ vs.foldl max c ∈ vs := by
  induction vs generalizing c with
  | nil => exact Or.inl rfl
  | cons v vs ih =>
    rcases ih (max c v) with h | h
    · rcases max_choice c v with hc | hc
      · exact Or.inl (by rw [List.foldl_cons, h, hc])
      · exact Or.inr (by rw [List.foldl_cons, h, hc]; exact List.mem_cons_self v vs)
    · exact Or.inr (List.mem_cons_of_mem v h)

theorem le_foldl_max (c : Val) (vs : List Val) :
    c ≤ vs.foldl max c ∧ ∀ v ∈ vs, v ≤ vs.foldl max c := by
  induction vs generalizing c with
  | nil => exact ⟨le_refl c, by simp⟩
  | cons v vs ih =>
    obtain ⟨h1, h2⟩ := ih (max c v)
    refine ⟨le_trans (le_max_left c v) h1, ?_⟩
    intro w hw
    rcases List.mem_cons.mp hw with rfl | hw
    · exact le_trans (le_max_right c w) h1
    · exact h2 w hw

theorem survivors_gt (cf : String) (st : Option Val) (B S : List Record)
    (h : filterBatch cf st B = Except.ok S) :
    ∀ v ∈ S.filterMap (fun r => getField r cf), newerThan st v = true := by
  have hS := filterBatch_ok_eq_filter cf st B S h
  subst hS
  intro v hv
  obtain ⟨r, hrS, hrv⟩ := List.mem_filterMap.mp hv
  have hk := (List.mem_filter.mp hrS).2
  simpa [keeps, hrv] using hk

/-- C3: After every successfully processed batch, the Cursor State equals the
maximum cursor-field value among the records that survived the filter in that
batch; if no record survived (the batch was empty or fully filtered out) the
Cursor State is exactly the previous state, unchanged. -/
theorem cursor_state_is_max (cf : String) (st : Option Val) (B S : List Record)
    (h : filterBatch cf st B = Except.ok S) :
    (S = [] → nextState cf st S = st) ∧
      (S ≠ [] → ∃ m, nextState cf st S = some m ∧
        m ∈ S.filterMap (fun r => getField r cf) ∧
        ∀ v ∈ S.filterMap (fun r => getField r cf), v ≤ m) := by
  constructor
  · rintro rfl
    rfl
  · intro hne
    have hgt := survivors_gt cf st B S h
    have hS := filterBatch_ok_eq_filter cf st B S h
    obtain ⟨r0, hr0⟩ := List.exists_mem_of_ne_nil S hne
    have hk0 := (List.mem_filter.mp (hS ▸ hr0)).2
    have hv0 : ∃ v0, getField r0 cf = some v0 := by
      cases hg : getField r0 cf with
      | none => rw [keeps, hg] at hk0; cases hk0
      | some v => exact ⟨v, rfl⟩
    obtain ⟨v0, hv0⟩ := hv0
    have hv0mem : v0 ∈ S.filterMap (fun r => getField r cf) :=
      List.mem_filterMap.mpr ⟨r0, hr0, hv0⟩
    rw [nextState]
    cases st with
    | none =>
      cases hvs : S.filterMap (fun r => getField r cf) with
      | nil => rw [hvs] at hv0mem; cases hv0mem
      | cons v vs =>
        rw [List.foldl_cons]
        have hb : bump none v = some v := rfl
        rw [hb, foldl_bump_some]
        refine ⟨vs.foldl max v, rfl, ?_, ?_⟩
        · rcases foldl_max_mem v vs with hm | hm
          · rw [hm]; exact List.mem_cons_self v vs
          · exact List.mem_cons_of_mem v hm
        · intro w hw
          obtain ⟨h1, h2⟩ := le_foldl_max v vs
          rcases List.mem_cons.mp hw with rfl | hw
          · exact h1
          · exact h2 w hw
    | some c =>
      rw [foldl_bump_some]
      refine ⟨_, rfl, ?_, (le_foldl_max c _).2⟩
      rcases foldl_max_mem c (S.filterMap (fun r => getField r cf)) with hm | hm
      · exfalso
        have hlt : c < v0 := of_decide_eq_true (by simpa [newerThan] using hgt v0 hv0mem)
        have hle : v0 ≤ c := hm ▸ (le_foldl_max c _).2 v0 hv0mem
        exact absurd hlt (not_lt.mpr hle)
      · exact hm

theorem cursor_state_is_max_witness :
    (([[("id", Val.vint 1), ("updated_at", Val.vint 20240103)]] : List Record) = [] →
        nextState "updated_at" (some (Val.vint 20240102))
          [[("id", Val.vint 1), ("updated_at", Val.vint 20240103)]] =
          some (Val.vint 20240102)) ∧
      (([[("id", Val.vint 1), ("updated_at", Val.vint 20240103)]] : List Record) ≠ [] →
        ∃ m, nextState "updated_at" (some (Val.vint 20240102))
            [[("id", Val.vint 1), ("updated_at", Val.vint 20240103)]] = some m ∧
          m ∈ List.filterMap (fun r => getField r "updated_at")
              [[("id", Val.vint 1), ("updated_at", Val.vint 20240103)]] ∧
          ∀ v ∈ List.filterMap (fun r => getField r "updated_at")
              [[("id", Val.vint 1), ("updated_at", Val.vint 20240103)]], v ≤ m) :=
  cursor_state_is_max "updated_at" (some (Val.vint 20240102))
    [[("id", Val.vint 1), ("updated_at", Val.vint 20240103)],
      [("id", Val.vint 2), ("updated_at", Val.vint 20240102)]]
    [[("id", Val.vint 1), ("updated_at", Val.vint 20240103)]] (by rfl)

/-! ## Monotonicity and atomicity of a run -/

theorem stateLE_refl (s : Option Val) : stateLE s s = true := by
  cases s <;> simp [stateLE]

theorem stateLE_trans (a b c : Option Val) (h1 : stateLE a b = true)
    (h2 : stateLE b c = true) : stateLE a c = true := by
  cases a with
  | none => simp [stateLE]
  | some x =>
    cases b with
    | none => simp [stateLE] at h1
    | some y =>
      cases c with
      | none => simp [stateLE] at h2
      | some z =>
        simp only [stateLE, decide_eq_true_eq] at *
        exact le_trans h1 h2

theorem stateLE_bump (st : Option Val) (v : Val) : stateLE st (bump st v) = true := by
  cases st <;> simp [stateLE, bump]

theorem stateLE_foldl_bump (st : Option Val) (vs : List Val) :
    stateLE st (vs.foldl bump st) = true := by
  induction vs generalizing st with
  | nil => exact stateLE_refl st
  | cons v vs ih => exact stateLE_trans _ _ _ (stateLE_bump st v) (ih (bump st v))

/-- C5: For every run (over any batch, starting from any cursor state), the Cursor
State after the run is greater than or equal to the Cursor State before the run. -/
theorem cursor_state_monotone (cf pk : String) (ext : Ext) (sys : SysState)
    (batch : List Record) :
    stateLE sys.cursor (runStore cf pk ext sys batch).1.cursor = true := by
  unfold runStore
  repeat' split
  all_goals simp [stateLE_refl, nextState, stateLE_foldl_bump]

theorem runStore_cursor_or_ok (cf pk : String) (ext : Ext) (sys : SysState)
    (batch : List Record) :
    (runStore cf pk ext sys batch).1.cursor = sys.cursor ∨
      (runStore cf pk ext sys batch).2 = none := by
  unfold runStore
  repeat' split
  all_goals simp

/-- C4: For every run that fails at the FILTER or MERGE step (including a
MissingPrimaryKey, MissingCursorField, CursorStoreUnavailable, or
DestinationWriteFailure error), the run aborts without reaching COMMIT_CURSOR and
the persisted Cursor State is left equal to its pre-run value; the cursor is
committed only after the entire run succeeds. -/
theorem failed_run_preserves_cursor (cf pk : String) (ext : Ext) (sys : SysState)
    (batch : List Record) (e : Err)
    (h : (runStore cf pk ext sys batch).2 = some e) :
    (runStore cf pk ext sys batch).1.cursor = sys.cursor := by
  rcases runStore_cursor_or_ok cf pk ext sys batch with hc | hc
  · exact hc
  · rw [hc] at h
    cases h

theorem failed_run_preserves_cursor_witness :
    (runStore "updated_at" "id" ⟨true, true, true⟩ ⟨some (Val.vint 1), []⟩
        [[("updated_at", Val.vint 5)]]).1.cursor =
      (⟨some (Val.vint 1), []⟩ : SysState).cursor :=
  failed_run_preserves_cursor "updated_at" "id" ⟨true, true, true⟩ ⟨some (Val.vint 1), []⟩
    [[("updated_at", Val.vint 5)]] Err.missingPrimaryKey (by rfl)

/-! ## Lemmas about the Merge Writer -/

/-- The primary-key values present in the destination, in row order. -/
def keysOf (pk : String) (dest : List Record) : List Val :=
  dest.filterMap (fun row => getField row pk)

/-- The last record of batch `B` whose primary-key field equals `k` (with
last-write-wins semantics for duplicated keys inside one batch). -/
def lastWithKey (pk : String) (B : List Record) (k : Val) : Option Record :=
  (B.filter (fun r => decide (getField r pk = some k))).getLast?

/-- How a whole merge of batch `B` rewrites one pre-existing destination row:
the row is replaced by the last incoming record carrying its key, or kept. -/
def updateRow (pk : String) (B : List Record) (row : Record) : Record :=
  match getField row pk with
  | none => row
  | some k => (lastWithKey pk B k).getD row

/-- The distinct primary-key values of `B` that are not in `seen`, in order of
first occurrence. -/
def newKeys (pk : String) (seen : List Val) : List Record → List Val
  | [] => []
  | r :: rs =>
    match getField r pk with
    | none => []
    | some k => if k ∈ seen then newKeys pk seen rs else k :: newKeys pk (k :: seen) rs

theorem hasKey_iff_mem_keysOf (pk : String) (dest : List Record) (k : Val) :
    hasKey pk dest k = true ↔ k ∈ keysOf pk dest := by
  simp only [hasKey, keysOf, List.any_eq_true, decide_eq_true_eq, List.mem_filterMap]

theorem keysOf_upsert_replace (pk : String) (dest : List Record) (r : Record) (k : Val)
    (hr : getField r pk = some k) (hk : hasKey pk dest k = true) :
    keysOf pk (upsertRow pk dest r k) = keysOf pk dest := by
  rw [upsertRow, if_pos hk, keysOf, keysOf, List.filterMap_map]
  refine List.filterMap_congr ?_
  intro row _
  by_cases hrow : getField row pk = some k
  · simp [Function.comp, hrow, hr]
  · simp [Function.comp, hrow]

theorem keysOf_upsert_insert (pk : String) (dest : List Record) (r : Record) (k : Val)
    (hr : getField r pk = some k) (hk : hasKey pk dest k = false) :
    keysOf pk (upsertRow pk dest r k) = keysOf pk dest ++ [k] := by
  rw [upsertRow, if_neg (by simp [hk]), keysOf, keysOf, List.filterMap_append]
  simp [hr]

theorem length_upsert_replace (pk : String) (dest : List Record) (r : Record) (k : Val)
    (hk : hasKey pk dest k = true) :
    (upsertRow pk dest r k).length = dest.length := by
  rw [upsertRow, if_pos hk, List.length_map]

theorem length_upsert_insert (pk : String) (dest : List Record) (r : Record) (k : Val)
    (hk : hasKey pk dest k = false) :
    (upsertRow pk dest r k).length = dest.length + 1 := by
  rw [upsertRow, if_neg (by simp [hk]), List.length_append, List.length_cons, List.length_nil]

theorem mergeBatch_ok_keys (pk : String) (dest B dest' : List Record)
    (h : mergeBatch pk dest B = Except.ok dest') :
    ∀ r ∈ B, (getField r pk).isSome = true := by
  induction B generalizing dest with
  | nil => simp
  | cons b bs ih =>
    rw [mergeBatch] at h
    cases hb : getField b pk with
    | none => rw [hb] at h; cases h
    | some k =>
      rw [hb] at h
      intro r hr
      rcases List.mem_cons.mp hr with rfl | hr
      · simp [hb]
      · exact ih (upsertRow pk dest b k) h r hr

theorem lastWithKey_cons (pk : String) (r : Record) (rs : List Record) (k0 k : Val)
    (hr : getField r pk = some k0) :
    lastWithKey pk (r :: rs) k =
      if k = k0 then some ((lastWithKey pk rs k).getD r) else lastWithKey pk rs k := by
  rw [lastWithKey, List.filter_cons]
  by_cases hkk : k = k0
  · subst hkk
    rw [if_pos (by simp [hr]), if_pos rfl, lastWithKey]
    cases hfil : List.filter (fun r => decide (getField r pk = some k)) rs with
    | nil => rfl
    | cons x xs =>
      rw [List.getLast?_cons_cons]
      cases hgl : (x :: xs).getLast? with
      | none => rw [List.getLast?_eq_none_iff] at hgl; cases hgl
      | some y => simp [hgl]
  · rw [if_neg (by simp [hr, Ne.symm hkk]), if_neg hkk, lastWithKey]

theorem lastWithKey_mem_key (pk : String) (B : List Record) (k : Val) (r : Record)
    (h : lastWithKey pk B k = some r) : r ∈ B ∧ getField r pk = some k := by
  have hmem := List.mem_of_mem_getLast? h
  have := List.mem_filter.mp hmem
  exact ⟨this.1, by simpa using this.2⟩

theorem newKeys_congr (pk : String) (seen1 seen2 : List Val) (B : List Record)
    (h : ∀ x, x ∈ seen1 ↔ x ∈ seen2) : newKeys pk seen1 B = newKeys pk seen2 B := by
  induction B generalizing seen1 seen2 with
  | nil => rfl
  | cons r rs ih =>
    cases hg : getField r pk with
    | none => simp only [newKeys, hg]
    | some k =>
      simp only [newKeys, hg]
      by_cases hk : k ∈ seen1
      · rw [if_pos hk, if_pos ((h k).mp hk)]
        exact ih seen1 seen2 h
      · rw [if_neg hk, if_neg (fun hc => hk ((h k).mpr hc))]
        refine congrArg (List.cons k) (ih (k :: seen1) (k :: seen2) ?_)
        intro x
        simp only [List.mem_cons]
        exact or_congr Iff.rfl (h x)

theorem newKeys_fresh (pk : String) (seen : List Val) (B : List Record) (k : Val)
    (h : k ∈ newKeys pk seen B) : k ∉ seen := by
  induction B generalizing seen with
  | nil => cases h
  | cons r rs ih =>
    cases hg : getField r pk with
    | none => simp only [newKeys, hg] at h; cases h
    | some k0 =>
      simp only [newKeys, hg] at h
      by_cases hk0 : k0 ∈ seen
      · rw [if_pos hk0] at h
        exact ih seen h
      · rw [if_neg hk0] at h
        rcases List.mem_cons.mp h with rfl | h
        · exact hk0
        · intro hc
          exact ih (k0 :: seen) h (List.mem_cons_of_mem k0 hc)

theorem newKeys_nodup (pk : String) (seen : List Val) (B : List Record) :
    (newKeys pk seen B).Nodup := by
  induction B generalizing seen with
  | nil => exact List.nodup_nil
  | cons r rs ih =>
    cases hg : getField r pk with
    | none => simp only [newKeys, hg]; exact List.nodup_nil
    | some k0 =>
      simp only [newKeys, hg]
      by_cases hk0 : k0 ∈ seen
      · rw [if_pos hk0]
        exact ih seen
      · rw [if_neg hk0]
        refine List.nodup_cons.mpr ⟨?_, ih (k0 :: seen)⟩
        intro hc
        exact newKeys_fresh pk (k0 :: seen) rs k0 hc (List.mem_cons_self k0 seen)

theorem mem_newKeys (pk : String) (B : List Record)
    (hall : ∀ r ∈ B, (getField r pk).isSome = true) :
    ∀ (seen : List Val) (k : Val), k ∈ B.filterMap (fun r => getField r pk) →
      k ∉ seen → k ∈ newKeys pk seen B := by
  induction B with
  | nil => intro seen k hk _; cases hk
  | cons r rs ih =>
    intro seen k hk hs
    obtain ⟨k0, hk0⟩ := Option.isSome_iff_exists.mp (hall r (by simp))
    have hall2 : ∀ x ∈ rs, (getField x pk).isSome = true := fun x hx => hall x (by simp [hx])
    simp only [newKeys, hk0]
    simp only [List.filterMap_cons, hk0] at hk
    by_cases hmem : k0 ∈ seen
    · rw [if_pos hmem]
      rcases List.mem_cons.mp hk with rfl | hk2
      · exact absurd hmem hs
      · exact ih hall2 seen k hk2 hs
    · rw [if_neg hmem]
      rcases List.mem_cons.mp hk with rfl | hk2
      · exact List.mem_cons_self _ _
      · by_cases hkk : k = k0
        · subst hkk
          exact List.mem_cons_self _ _
        · refine List.mem_cons_of_mem _ (ih hall2 (k0 :: seen) k hk2 ?_)
          simp [hkk, hs]

theorem newKeys_subset_batch (pk : String) (B : List Record) :
    ∀ (seen : List Val) (k : Val), k ∈ newKeys pk seen B →
      k ∈ B.filterMap (fun r => getField r pk) := by
  induction B with
  | nil => intro seen k hk; cases hk
  | cons r rs ih =>
    intro seen k hk
    cases hg : getField r pk with
    | none => simp only [newKeys, hg] at hk; cases hk
    | some k0 =>
      simp only [newKeys, hg] at hk
      simp only [List.filterMap_cons, hg]
      by_cases hmem : k0 ∈ seen
      · rw [if_pos hmem] at hk
        exact List.mem_cons_of_mem _ (ih seen k hk)
      · rw [if_neg hmem] at hk
        rcases List.mem_cons.mp hk with rfl | hk2
        · exact List.mem_cons_self _ _
        · exact List.mem_cons_of_mem _ (ih (k0 :: seen) k hk2)

theorem lastWithKey_isSome (pk : String) (B : List Record) (k : Val)
    (hk : k ∈ B.filterMap (fun r => getField r pk)) :
    ∃ r, lastWithKey pk B k = some r := by
  obtain ⟨r, hrB, hr⟩ := List.mem_filterMap.mp hk
  have hrf : r ∈ B.filter (fun r => decide (getField r pk = some k)) :=
    List.mem_filter.mpr ⟨hrB, by simp [hr]⟩
  rw [lastWithKey]
  cases hl : (B.filter (fun r => decide (getField r pk = some k))).getLast? with
  | none =>
    rw [List.getLast?_eq_none_iff] at hl
    rw [hl] at hrf
    cases hrf
  | some x => exact ⟨x, rfl⟩

theorem newKeys_length (pk : String) (B : List Record)
    (hall : ∀ r ∈ B, (getField r pk).isSome = true) :
    ∀ seen : List Val, (newKeys pk seen B).length =
      ((B.filterMap (fun r => getField r pk)).toFinset \ seen.toFinset).card := by
  induction B with
  | nil => intro seen; simp [newKeys]
  | cons r rs ih =>
    intro seen
    obtain ⟨k0, hk0⟩ := Option.isSome_iff_exists.mp (hall r (by simp))
    have hall2 : ∀ x ∈ rs, (getField x pk).isSome = true := fun x hx => hall x (by simp [hx])
    simp only [newKeys, hk0]
    simp only [List.filterMap_cons, hk0, List.toFinset_cons]
    by_cases hmem : k0 ∈ seen
    · rw [if_pos hmem, ih hall2 seen, Finset.insert_sdiff_of_mem _ (by simp [hmem])]
    · rw [if_neg hmem, List.length_cons, ih hall2 (k0 :: seen)]
      have hset :
          insert k0 (List.filterMap (fun r => getField r pk) rs).toFinset \ seen.toFinset =
            insert k0 ((List.filterMap (fun r => getField r pk) rs).toFinset \
              (k0 :: seen).toFinset) := by
        ext x
        simp only [Finset.mem_sdiff, Finset.mem_insert, List.mem_toFinset, List.mem_cons]
        constructor
        · rintro ⟨hx | hx, hxs⟩
          · exact Or.inl hx
          · by_cases hxk : x = k0
            · exact Or.inl hxk
            · exact Or.inr ⟨hx, fun hc => hc.elim hxk hxs⟩
        · rintro (rfl | ⟨hx, hxs⟩)
          · exact ⟨Or.inl rfl, hmem⟩
          · exact ⟨Or.inr hx, fun hc => hxs (Or.inr hc)⟩
      rw [hset, Finset.card_insert_of_not_mem (by simp)]

theorem updateRow_eq_none (pk : String) (B : List Record) (row : Record)
    (h : getField row pk = none) : updateRow pk B row = row := by
  simp [updateRow, h]

theorem updateRow_eq_some (pk : String) (B : List Record) (row : Record) (k : Val)
    (h : getField row pk = some k) :
    updateRow pk B row = (lastWithKey pk B k).getD row := by
  simp [updateRow, h]

/-- The functional characterisation of the Merge Writer: a successful merge maps
every pre-existing row through `updateRow` (in place, in order) and appends, for
each genuinely new key in first-occurrence order, the last incoming record bearing
that key. -/
theorem mergeBatch_closed_form (pk : String) (B : List Record) :
    ∀ dest dest' : List Record, mergeBatch pk dest B = Except.ok dest' →
      dest' = dest.map (updateRow pk B) ++
        (newKeys pk (keysOf pk dest) B).filterMap (lastWithKey pk B) := by
  induction B with
  | nil =>
    intro dest dest' h
    rw [mergeBatch] at h
    cases h
    have hid : ∀ row ∈ dest, updateRow pk ([] : List Record) row = row := by
      intro row _
      cases hg : getField row pk with
      | none => exact updateRow_eq_none pk [] row hg
      | some k => simp [updateRow_eq_some pk [] row k hg, lastWithKey]
    simp only [newKeys, List.filterMap_nil, List.append_nil]
    rw [List.map_congr_left hid]
    simp
  | cons r rs ih =>
    intro dest dest' h
    rw [mergeBatch] at h
    cases hk0 : getField r pk with
    | none => rw [hk0] at h; cases h
    | some k0 =>
      rw [hk0] at h
      have hrec := ih (upsertRow pk dest r k0) dest' h
      by_cases hhk : hasKey pk dest k0 = true
      · rw [keysOf_upsert_replace pk dest r k0 hk0 hhk] at hrec
        subst hrec
        have hmap : (upsertRow pk dest r k0).map (updateRow pk rs) =
            dest.map (updateRow pk (r :: rs)) := by
          rw [upsertRow, if_pos hhk, List.map_map]
          refine List.map_congr_left ?_
          intro row _
          show updateRow pk rs (if getField row pk = some k0 then r else row) =
            updateRow pk (r :: rs) row
          by_cases hrowk : getField row pk = some k0
          · rw [if_pos hrowk, updateRow_eq_some pk rs r k0 hk0,
              updateRow_eq_some pk (r :: rs) row k0 hrowk,
              lastWithKey_cons pk r rs k0 k0 hk0, if_pos rfl, Option.getD_some]
          · rw [if_neg hrowk]
            cases hrk : getField row pk with
            | none =>
              rw [updateRow_eq_none pk rs row hrk, updateRow_eq_none pk (r :: rs) row hrk]
            | some kk =>
              have hne : kk ≠ k0 := fun hc => hrowk (by rw [hrk, hc])
              rw [updateRow_eq_some pk rs row kk hrk,
                updateRow_eq_some pk (r :: rs) row kk hrk,
                lastWithKey_cons pk r rs k0 kk hk0, if_neg hne]
        have hnew : newKeys pk (keysOf pk dest) (r :: rs) =
            newKeys pk (keysOf pk dest) rs := by
          simp only [newKeys, hk0]
          rw [if_pos ((hasKey_iff_mem_keysOf pk dest k0).mp hhk)]
        have hfm : (newKeys pk (keysOf pk dest) rs).filterMap (lastWithKey pk rs) =
            (newKeys pk (keysOf pk dest) rs).filterMap (lastWithKey pk (r :: rs)) := by
          refine List.filterMap_congr ?_
          intro x hx
          have hxne : x ≠ k0 := fun hc =>
            newKeys_fresh pk (keysOf pk dest) rs x hx
              (hc ▸ (hasKey_iff_mem_keysOf pk dest k0).mp hhk)
          rw [lastWithKey_cons pk r rs k0 x hk0, if_neg hxne]
        rw [hmap, hnew, hfm]
      · have hhkf : hasKey pk dest k0 = false := by
          cases hv : hasKey pk dest k0 with
          | false => rfl
          | true => exact absurd hv hhk
        have hknot : k0 ∉ keysOf pk dest :=
          fun hc => hhk ((hasKey_iff_mem_keysOf pk dest k0).mpr hc)
        rw [keysOf_upsert_insert pk dest r k0 hk0 hhkf] at hrec
        have hupseq : upsertRow pk dest r k0 = dest ++ [r] := by
          rw [upsertRow, if_neg (by simp [hhkf])]
        rw [hupseq] at hrec
        subst hrec
        have hmap : dest.map (updateRow pk rs) = dest.map (updateRow pk (r :: rs)) := by
          refine List.map_congr_left ?_
          intro row hrow
          cases hrk : getField row pk with
          | none =>
            rw [updateRow_eq_none pk rs row hrk, updateRow_eq_none pk (r :: rs) row hrk]
          | some kk =>
            have hkkmem : kk ∈ keysOf pk dest := List.mem_filterMap.mpr ⟨row, hrow, hrk⟩
            have hne : kk ≠ k0 := fun hc => hknot (hc ▸ hkkmem)
            rw [updateRow_eq_some pk rs row kk hrk,
              updateRow_eq_some pk (r :: rs) row kk hrk,
              lastWithKey_cons pk r rs k0 kk hk0, if_neg hne]
        have hnew : newKeys pk (keysOf pk dest) (r :: rs) =
            k0 :: newKeys pk (k0 :: keysOf pk dest) rs := by
          simp only [newKeys, hk0]
          rw [if_neg hknot]
        have hseen : newKeys pk (keysOf pk dest ++ [k0]) rs =
            newKeys pk (k0 :: keysOf pk dest) rs := by
          refine newKeys_congr pk _ _ rs ?_
          intro x
          simp [or_comm]
        have hfm : (newKeys pk (k0 :: keysOf pk dest) rs).filterMap (lastWithKey pk rs) =
            (newKeys pk (k0 :: keysOf pk dest) rs).filterMap (lastWithKey pk (r :: rs)) := by
          refine List.filterMap_congr ?_
          intro x hx
          have hxne : x ≠ k0 := fun hc =>
            newKeys_fresh pk (k0 :: keysOf pk dest) rs x hx
              (hc ▸ List.mem_cons_self k0 (keysOf pk dest))
          rw [lastWithKey_cons pk r rs k0 x hk0, if_neg hxne]
        have hhead : List.map (updateRow pk rs) [r] = [(lastWithKey pk rs k0).getD r] := by
          rw [List.map_cons, List.map_nil, updateRow_eq_some pk rs r k0 hk0]
        rw [List.map_append, hmap, hseen, hfm, hnew, List.filterMap_cons]
        rw [lastWithKey_cons pk r rs k0 k0 hk0, if_pos rfl]
        rw [hhead, List.append_assoc]
        rfl

theorem map_eq_self_of_fix {α : Type} (l : List α) (f : α → α) (h : ∀ x ∈ l, f x = x) :
    l.map f = l := by
  induction l with
  | nil => rfl
  | cons x xs ih => rw [List.map_cons, h x (by simp), ih (fun y hy => h y (by simp [hy]))]

theorem length_filterMap_all_some {α β : Type} (f : α → Option β) (l : List α)
    (h : ∀ x ∈ l, ∃ y, f x = some y) : (l.filterMap f).length = l.length := by
  induction l with
  | nil => rfl
  | cons x xs ih =>
    obtain ⟨y, hy⟩ := h x (by simp)
    simp only [List.filterMap_cons, hy, List.length_cons]
    rw [ih (fun z hz => h z (by simp [hz]))]

theorem keysOf_append (pk : String) (a b : List Record) :
    keysOf pk (a ++ b) = keysOf pk a ++ keysOf pk b := by
  simp [keysOf, List.filterMap_append]

theorem keysOf_map_updateRow (pk : String) (B dest : List Record) :
    keysOf pk (dest.map (updateRow pk B)) = keysOf pk dest := by
  rw [keysOf, keysOf, List.filterMap_map]
  refine List.filterMap_congr ?_
  intro row _
  cases hg : getField row pk with
  | none => simp [Function.comp, updateRow_eq_none pk B row hg, hg]
  | some k =>
    rw [Function.comp_apply, updateRow_eq_some pk B row k hg]
    cases hl : lastWithKey pk B k with
    | none => simp [hg]
    | some row2 =>
      have hk2 := (lastWithKey_mem_key pk B k row2 hl).2
      simp [hk2, hg]

theorem keysOf_filterMap_lastWithKey (pk : String) (B : List Record) :
    ∀ l : List Val, (∀ x ∈ l, ∃ r, lastWithKey pk B x = some r) →
      keysOf pk (l.filterMap (lastWithKey pk B)) = l := by
  intro l
  induction l with
  | nil => intro _; rfl
  | cons x xs ih =>
    intro h
    obtain ⟨r, hr⟩ := h x (by simp)
    have hk := (lastWithKey_mem_key pk B x r hr).2
    have h2 := ih (fun y hy => h y (by simp [hy]))
    simp only [keysOf] at h2 ⊢
    simp only [List.filterMap_cons, hr, hk]
    exact congrArg (List.cons x) h2

theorem mergeBatch_keysOf (pk : String) (dest B dest' : List Record)
    (h : mergeBatch pk dest B = Except.ok dest') :
    keysOf pk dest' = keysOf pk dest ++ newKeys pk (keysOf pk dest) B := by
  have hcf := mergeBatch_closed_form pk B dest dest' h
  subst hcf
  rw [keysOf_append, keysOf_map_updateRow, keysOf_filterMap_lastWithKey]
  intro x hx
  exact lastWithKey_isSome pk B x (newKeys_subset_batch pk B (keysOf pk dest) x hx)

/-- C2: For every filtered batch and every destination table keyed by primary key,
the Merge Writer replaces the field values of each destination row whose primary
key matches an incoming record (by the last incoming record with that key),
inserts each incoming record with an unmatched primary key as a new row, leaves
every other pre-existing destination row unchanged (in place), and the
destination row count increases by exactly the number of distinct primary keys in
the batch not previously present; no key is ever duplicated. -/
theorem merge_writer_upsert (pk : String) (dest B dest' : List Record)
    (h : mergeBatch pk dest B = Except.ok dest') :
    (∀ (i : Nat) (row : Record), dest[i]? = some row →
        (∀ r ∈ B, getField r pk ≠ getField row pk) → dest'[i]? = some row) ∧
      (∀ (i : Nat) (row : Record) k r, dest[i]? = some row → getField row pk = some k →
        lastWithKey pk B k = some r → dest'[i]? = some r) ∧
      (∀ r k, r ∈ B → getField r pk = some k → hasKey pk dest k = false →
        lastWithKey pk B k = some r → r ∈ dest') ∧
      dest'.length = dest.length +
        ((B.filterMap (fun r => getField r pk)).toFinset \
          (keysOf pk dest).toFinset).card ∧
      ((keysOf pk dest).Nodup → (keysOf pk dest').Nodup) := by
  have hall := mergeBatch_ok_keys pk dest B dest' h
  have hkeys := mergeBatch_keysOf pk dest B dest' h
  have hcf := mergeBatch_closed_form pk B dest dest' h
  have hsome : ∀ x ∈ newKeys pk (keysOf pk dest) B, ∃ r, lastWithKey pk B x = some r :=
    fun x hx => lastWithKey_isSome pk B x (newKeys_subset_batch pk B (keysOf pk dest) x hx)
  refine ⟨?_, ?_, ?_, ?_, ?_⟩
  · intro i row hi hno
    have hilt : i < dest.length := by
      by_contra hge
      rw [List.getElem?_eq_none (by omega)] at hi
      cases hi
    rw [hcf, List.getElem?_append_left (by rw [List.length_map]; exact hilt),
      List.getElem?_map, hi, Option.map_some']
    have hu : updateRow pk B row = row := by
      cases hg : getField row pk with
      | none => exact updateRow_eq_none pk B row hg
      | some k =>
        rw [updateRow_eq_some pk B row k hg]
        cases hl : lastWithKey pk B k with
        | none => rfl
        | some r2 =>
          obtain ⟨hr2B, hr2k⟩ := lastWithKey_mem_key pk B k r2 hl
          exact absurd (hr2k.trans hg.symm) (hno r2 hr2B)
    rw [hu]
  · intro i row k r hi hrk hlast
    have hilt : i < dest.length := by
      by_contra hge
      rw [List.getElem?_eq_none (by omega)] at hi
      cases hi
    rw [hcf, List.getElem?_append_left (by rw [List.length_map]; exact hilt),
      List.getElem?_map, hi, Option.map_some']
    rw [updateRow_eq_some pk B row k hrk, hlast, Option.getD_some]
  · intro r k hrB hrk hnok hlast
    have hkB : k ∈ B.filterMap (fun x => getField x pk) :=
      List.mem_filterMap.mpr ⟨r, hrB, hrk⟩
    have hknot : k ∉ keysOf pk dest := by
      intro hc
      rw [(hasKey_iff_mem_keysOf pk dest k).mpr hc] at hnok
      cases hnok
    have hknew : k ∈ newKeys pk (keysOf pk dest) B :=
      mem_newKeys pk B hall (keysOf pk dest) k hkB hknot
    rw [hcf]
    exact List.mem_append_right _ (List.mem_filterMap.mpr ⟨k, hknew, hlast⟩)
  · rw [hcf, List.length_append, List.length_map,
      length_filterMap_all_some (lastWithKey pk B) _ hsome,
      newKeys_length pk B hall (keysOf pk dest)]
  · intro hnd
    rw [hkeys]
    refine List.Nodup.append hnd (newKeys_nodup pk (keysOf pk dest) B) ?_
    intro a ha hc
    exact newKeys_fresh pk (keysOf pk dest) B a hc ha

theorem newKeys_eq_nil (pk : String) (B : List Record) :
    ∀ seen : List Val, (∀ k ∈ B.filterMap (fun r => getField r pk), k ∈ seen) →
      newKeys pk seen B = [] := by
  induction B with
  | nil => intro _ _; rfl
  | cons r rs ih =>
    intro seen hsub
    cases hg : getField r pk with
    | none => simp only [newKeys, hg]
    | some k0 =>
      simp only [newKeys, hg]
      have hk0 : k0 ∈ seen := hsub k0 (by simp [List.filterMap_cons, hg])
      rw [if_pos hk0]
      refine ih seen ?_
      intro k hk
      refine hsub k ?_
      simp only [List.filterMap_cons, hg]
      exact List.mem_cons_of_mem _ hk

theorem updateRow_idem (pk : String) (B : List Record) (row : Record) :
    updateRow pk B (updateRow pk B row) = updateRow pk B row := by
  cases hg : getField row pk with
  | none => rw [updateRow_eq_none pk B row hg, updateRow_eq_none pk B row hg]
  | some k =>
    rw [updateRow_eq_some pk B row k hg]
    cases hl : lastWithKey pk B k with
    | none => rw [Option.getD_none, updateRow_eq_some pk B row k hg, hl, Option.getD_none]
    | some r2 =>
      rw [Option.getD_some]
      have hk2 := (lastWithKey_mem_key pk B k r2 hl).2
      rw [updateRow_eq_some pk B r2 k hk2, hl, Option.getD_some]

/-- C6: For every filtered batch and every destination state, applying the Merge
Writer to the batch twice in succession yields a destination identical to applying
it once (merge is idempotent per primary key), so retrying an aborted run from the
previous cursor cannot create duplicates or advance past already-merged data. -/
theorem merge_writer_idempotent (pk : String) (dest B d1 d2 : List Record)
    (h1 : mergeBatch pk dest B = Except.ok d1)
    (h2 : mergeBatch pk d1 B = Except.ok d2) : d2 = d1 := by
  have hall := mergeBatch_ok_keys pk dest B d1 h1
  have hk1 := mergeBatch_keysOf pk dest B d1 h1
  have hsub : ∀ k ∈ B.filterMap (fun r => getField r pk), k ∈ keysOf pk d1 := by
    intro k hk
    rw [hk1, List.mem_append]
    by_cases hm : k ∈ keysOf pk dest
    · exact Or.inl hm
    · exact Or.inr (mem_newKeys pk B hall (keysOf pk dest) k hk hm)
  have hnk : newKeys pk (keysOf pk d1) B = [] := newKeys_eq_nil pk B (keysOf pk d1) hsub
  have hcf2 := mergeBatch_closed_form pk B d1 d2 h2
  rw [hnk, List.filterMap_nil, List.append_nil] at hcf2
  have hcf1 := mergeBatch_closed_form pk B dest d1 h1
  have hfix : ∀ row ∈ d1, updateRow pk B row = row := by
    intro row hrow
    rw [hcf1] at hrow
    rcases List.mem_append.mp hrow with hm | hm
    · obtain ⟨row0, _, rfl⟩ := List.mem_map.mp hm
      exact updateRow_idem pk B row0
    · obtain ⟨x, _, hlast⟩ := List.mem_filterMap.mp hm
      have hk := (lastWithKey_mem_key pk B x row hlast).2
      rw [updateRow_eq_some pk B row x hk, hlast, Option.getD_some]
  rw [hcf2, map_eq_self_of_fix d1 (updateRow pk B) hfix]

/-- C8: For every record that lacks the configured primary-key field, the Merge
Writer operation fails, raising MissingPrimaryKey, rather than silently inserting
a keyless row; the error is fatal for the run. -/
theorem missing_primary_key_fails (pk : String) (B : List Record) (r : Record) :
    r ∈ B → getField r pk = none →
    ∀ dest, mergeBatch pk dest B = Except.error Err.missingPrimaryKey := by
  induction B with
  | nil => intro hr _ _; cases hr
  | cons b bs ih =>
    intro hr hk dest
    rw [mergeBatch]
    rcases List.mem_cons.mp hr with rfl | hr2
    · rw [hk]
    · cases hb : getField b pk with
      | none => rfl
      | some k => exact ih hr2 hk (upsertRow pk dest b k)

/-- Example destination row: id 1 with old field values. -/
def exRow1 : Record := [("id", Val.vint 1), ("name", Val.vstr "old")]

/-- Example incoming record: id 1 with new field values. -/
def exNew1 : Record := [("id", Val.vint 1), ("name", Val.vstr "new")]

/-- Example incoming record: id 2, not previously present. -/
def exNew2 : Record := [("id", Val.vint 2), ("name", Val.vstr "b")]

/-- Example destination before the merge. -/
def exDest : List Record := [exRow1]

/-- Example incoming batch. -/
def exBatch : List Record := [exNew1, exNew2]

/-- Example destination after the merge: id 1 updated in place, id 2 appended. -/
def exMerged : List Record := [exNew1, exNew2]

theorem merge_writer_upsert_witness :
    (∀ (i : Nat) (row : Record), exDest[i]? = some row →
        (∀ r ∈ exBatch, getField r "id" ≠ getField row "id") → exMerged[i]? = some row) ∧
      (∀ (i : Nat) (row : Record) k r, exDest[i]? = some row →
        getField row "id" = some k → lastWithKey "id" exBatch k = some r →
        exMerged[i]? = some r) ∧
      (∀ r k, r ∈ exBatch → getField r "id" = some k → hasKey "id" exDest k = false →
        lastWithKey "id" exBatch k = some r → r ∈ exMerged) ∧
      exMerged.length = exDest.length +
        ((exBatch.filterMap (fun r => getField r "id")).toFinset \
          (keysOf "id" exDest).toFinset).card ∧
      ((keysOf "id" exDest).Nodup → (keysOf "id" exMerged).Nodup) :=
  merge_writer_upsert "id" exDest exBatch exMerged (by rfl)

theorem merge_writer_idempotent_witness :
    ([[("id", Val.vint 1), ("name", Val.vstr "new")],
      [("id", Val.vint 2), ("name", Val.vstr "b")]] : List Record) = exMerged :=
  merge_writer_idempotent "id" exDest exBatch exMerged
    [[("id", Val.vint 1), ("name", Val.vstr "new")],
      [("id", Val.vint 2), ("name", Val.vstr "b")]] (by rfl) (by rfl)

theorem missing_primary_key_fails_witness :
    mergeBatch "id" [] [[("name", Val.vstr "x")]] =
      Except.error Err.missingPrimaryKey :=
  missing_primary_key_fails "id" [[("name", Val.vstr "x")]] [("name", Val.vstr "x")]
    (List.mem_singleton.mpr rfl) (by rfl) []

/-! ## The record-producing functions embedded from the notebooks -/

/-- Number of simulated users in the `person` resource
(src/unnamed/part_000). -/
def n_users : Nat := 10

/-- The static `updated_at` timestamp `datetime(2024, 1, 1, 0, 0, 0, 0, UTC)` of
the `person` resource, as epoch seconds. -/
def staticUpdatedAt : Int := 1704067200

/-- Embedded from src/unnamed/part_000 (`person` resource): yields one record per
id in `range(n_users)`, each with the four fields id, name, country and
updated_at; the rows whose id is in the sampled `ids_to_update` carry the current
timestamp `now`, the rest the static timestamp.  The nondeterministic inputs
(faker names, random countries, the two sampled ids, the clock) are abstracted as
parameters. -/
def person (names countries : Nat → String) (idsToUpdate : List Nat) (now : Int) :
    List Record :=
  (List.range n_users).map (fun i =>
    [("id", Val.vint (Int.ofNat i)), ("name", Val.vstr (names i)),
      ("country", Val.vstr (countries i)),
      ("updated_at", Val.vint (if i ∈ idsToUpdate then now else staticUpdatedAt))])

theorem mergeBatch_isOk (pk : String) (B : List Record)
    (h : ∀ r ∈ B, (getField r pk).isSome = true) :
    ∀ dest, ∃ d2, mergeBatch pk dest B = Except.ok d2 := by
  induction B with
  | nil => intro dest; exact ⟨dest, rfl⟩
  | cons b bs ih =>
    intro dest
    obtain ⟨k, hk⟩ := Option.isSome_iff_exists.mp (h b (by simp))
    obtain ⟨d2, hd2⟩ := ih (fun x hx => h x (by simp [hx])) (upsertRow pk dest b k)
    refine ⟨d2, ?_⟩
    rw [mergeBatch, hk]
    exact hd2

/-- C9: Every invocation of the person generator yields exactly n_users = 10
records, with id values 0 through 9 in increasing order, and every yielded record
contains all four fields id, name, country, and updated_at — so the designated
primary-key field and cursor field are present in every record the source
produces, and the MissingPrimaryKey and MissingCursorField error branches are
unreachable for this source. -/
theorem person_shape (names countries : Nat → String) (idsToUpdate : List Nat)
    (now : Int) :
    (person names countries idsToUpdate now).length = 10 ∧
      (person names countries idsToUpdate now).map (fun r => getField r "id") =
        (List.range 10).map (fun i => some (Val.vint (Int.ofNat i))) ∧
      (∀ r ∈ person names countries idsToUpdate now,
        (getField r "id").isSome = true ∧ (getField r "name").isSome = true ∧
        (getField r "country").isSome = true ∧
        (getField r "updated_at").isSome = true) ∧
      (∀ st, filterBatch "updated_at" st (person names countries idsToUpdate now) =
        Except.ok (List.filter (keeps "updated_at" st)
          (person names countries idsToUpdate now))) ∧
      (∀ dest, ∃ d2, mergeBatch "id" dest (person names countries idsToUpdate now) =
        Except.ok d2) := by
  have hfields : ∀ r ∈ person names countries idsToUpdate now,
      (getField r "id").isSome = true ∧ (getField r "name").isSome = true ∧
      (getField r "country").isSome = true ∧
      (getField r "updated_at").isSome = true := by
    intro r hr
    simp only [person, List.mem_map, List.mem_range] at hr
    obtain ⟨i, _, rfl⟩ := hr
    exact ⟨rfl, rfl, rfl, rfl⟩
  refine ⟨by simp [person, n_users], ?_, hfields, ?_, ?_⟩
  · simp only [person, List.map_map, n_users]
    refine List.map_congr_left ?_
    intro i _
    rfl
  · intro st
    exact filterBatch_isOk "updated_at" st _ (fun r hr => (hfields r hr).2.2.2)
  · intro dest
    exact mergeBatch_isOk "id" _ (fun r hr => (hfields r hr).1) dest

/-- Embedded from src/lessons/2_config_and_secrets.ipynb (`people` resource with
an injected secret): three fixed persons; the third person's country is the
injected `secret_country` value. -/
def people (secret_country : String) : List Record :=
  [[("id", Val.vstr "1"), ("name", Val.vstr "Warren Buffet"),
      ("country", Val.vstr "USA")],
    [("id", Val.vstr "2"), ("name", Val.vstr "Jack Ma"),
      ("country", Val.vstr "China")],
    [("id", Val.vstr "3"), ("name", Val.vstr "Rafal Brzoska"),
      ("country", Val.vstr secret_country)]]

/-- Erase the value of the country field of a record, keeping everything else. -/
def eraseCountry (r : Record) : Record :=
  r.map (fun p => if p.1 = "country" then (p.1, Val.vstr "") else p)

/-- C10: In the people resource with an injected secret, the records yielded for
id 1 and id 2 are identical across any two runs with different secret_country
values, and the injected secret value influences only the country field of the
record with id 3: erasing the country field makes the whole output independent of
the secret, while the third record's country field carries exactly the secret. -/
theorem people_noninterference (s1 s2 : String) :
    (people s1).take 2 = (people s2).take 2 ∧
      (people s1).map eraseCountry = (people s2).map eraseCountry ∧
      getField ((people s1).getD 2 []) "country" = some (Val.vstr s1) := by
  exact ⟨rfl, rfl, rfl⟩

end EdpWorkshop
